import Mathlib

/-!
Verification of `alpha_beta.py` (`alpha_beta_search`).

The Python function operates on trees represented as nested dictionaries
whose leaves are integers, and on a depth budget, an `(alpha, beta)` window
of numbers extended with `float('-inf')` / `float('inf')`, a player flag and
a pruning flag.  It prints one line per child after folding that child's
value into the running best and into the window, plus a `Pruned at node`
line when a cutoff fires, and it returns a number.

The embedding below mirrors the source line by line:
  * `XInt` models Python numbers extended with the two float infinities,
    with Python's `<=`, `max`, `min` on them;
  * `Node`/`Children` model the dictionary trees (a leaf is an `Int`, an
    internal node is an insertion-ordered association list);
  * `Node.falsy` models Python truthiness (`not node`): the integer `0` and
    the empty dict are falsy;
  * `ab` (with its two loop helpers `loopMax`, `loopMin`) models
    `alpha_beta_search`: the returned pair is (lines printed so far, result),
    where the result is `none` when the Python code raises a `TypeError`
    (iterating over an `int`, which happens exactly when a nonzero integer
    leaf is reached with `depth != 0`), and `some v` when it returns `v`.
    On an error the lines already printed are kept, as on stdout.
-/

/-- Python numbers extended with `float('-inf')` and `float('inf')`.
All numbers the program manipulates are integers or the two infinities. -/
inductive XInt where
  | negInf : XInt
  | fin : Int → XInt
  | posInf : XInt
deriving DecidableEq

/-- Python `<=` on `XInt` (total order with `-inf` at the bottom). -/
def XInt.le : XInt → XInt → Bool
  | .negInf, _ => true
  | _, .posInf => true
  | .fin a, .fin b => a ≤ b
  | .posInf, _ => false
  | .fin _, .negInf => false

/-- Python `max(a, b)` on `XInt`. -/
def XInt.max (a b : XInt) : XInt := if XInt.le a b then b else a

/-- Python `min(a, b)` on `XInt`. -/
def XInt.min (a b : XInt) : XInt := if XInt.le a b then a else b

mutual
/-- A tree as `alpha_beta.py` represents it: a dictionary value is either an
integer utility (a leaf) or a nested dictionary (an internal node). -/
inductive Node where
  | leaf : Int → Node
  | node : Children → Node

/-- The key/value pairs of an internal node's dictionary, in insertion
order (Python dicts iterate in insertion order). -/
inductive Children where
  | nil : Children
  | cons : String → Node → Children → Children
end

/-- Python truthiness test `not node` inverted: `0` and `{}` are falsy. -/
def Node.falsy : Node → Bool
  | .leaf v => v == 0
  | .node .nil => true
  | .node (.cons _ _ _) => false

/-- One printed line of `alpha_beta_search`: either the per-child record
`Node: {child}, Alpha: {alpha}, Beta: {beta}` (stored structurally as the
label and the two numbers) or the cutoff record `Pruned at node {child}`. -/
inductive Tr where
  | visit : String → XInt → XInt → Tr
  | pruned : String → Tr
deriving DecidableEq

mutual
/-- The function `alpha_beta_search(node, depth, alpha, beta, maximizing_player, prunning)`
from `alpha_beta.py` lines 8-31.  Returns (printed lines, result); the
result is `none` when the Python code raises (`for child in node` over a
nonzero integer), otherwise `some` of the returned value.

```
def alpha_beta_search(node, depth, alpha, beta, maximizing_player, prunning=False):
    if depth == 0 or not node:
        return 0
    if maximizing_player:
        value = float('-inf')
        for child in node:
            value = max(value, alpha_beta_search(node[child], depth - 1, alpha, beta, False, prunning))
            alpha = max(alpha, value)
            print(f"Node: {child}, Alpha: {alpha}, Beta: {beta}")
            if alpha >= beta and prunning:
                print(f"Pruned at node {child}")
                break
        return value
    else:
        ... symmetric with min/beta ...
```
-/
def ab : Node → Int → XInt → XInt → Bool → Bool → List Tr × Option XInt
  | n, d, a, b, p, pr =>
    if d == 0 || n.falsy then ([], some (.fin 0))
    else
      match n with
      | .leaf _ => ([], none)
      | .node cs =>
        if p then loopMax cs (d - 1) a b pr .negInf
        else loopMin cs (d - 1) a b pr .posInf

/-- The `for child in node` loop of the maximizing branch.  `v` is the
running `value`; each child is searched with the current window, then
`value` and `alpha` are updated, the record is printed, and the loop breaks
(printing the cutoff record) when `alpha >= beta and prunning`. -/
def loopMax : Children → Int → XInt → XInt → Bool → XInt → List Tr × Option XInt
  | .nil, _, _, _, _, v => ([], some v)
  | .cons l c rest, d, a, b, pr, v =>
    match ab c d a b false pr with
    | (tr, none) => (tr, none)
    | (tr, some cv) =>
      let v2 := XInt.max v cv
      let a2 := XInt.max a v2
      if XInt.le b a2 && pr then (tr ++ [.visit l a2 b, .pruned l], some v2)
      else
        let r := loopMax rest d a2 b pr v2
        (tr ++ .visit l a2 b :: r.1, r.2)

/-- The `for child in node` loop of the minimizing branch. -/
def loopMin : Children → Int → XInt → XInt → Bool → XInt → List Tr × Option XInt
  | .nil, _, _, _, _, v => ([], some v)
  | .cons l c rest, d, a, b, pr, v =>
    match ab c d a b true pr with
    | (tr, none) => (tr, none)
    | (tr, some cv) =>
      let v2 := XInt.min v cv
      let b2 := XInt.min b v2
      if XInt.le b2 a && pr then (tr ++ [.visit l a b2, .pruned l], some v2)
      else
        let r := loopMin rest d a b2 pr v2
        (tr ++ .visit l a b2 :: r.1, r.2)
end

/-- Rendering of an `XInt` by a Python f-string: integers print in decimal,
the infinities print as `inf` / `-inf`. -/
def XInt.str : XInt → String
  | .negInf => "-inf"
  | .posInf => "inf"
  | .fin n => toString n

/-- The literal line printed for a trace record, exactly as the two
f-strings of `alpha_beta.py` produce it. -/
def Tr.render : Tr → String
  | .visit l al be => "Node: " ++ l ++ ", Alpha: " ++ XInt.str al ++ ", Beta: " ++ XInt.str be
  | .pruned l => "Pruned at node " ++ l

/-- The chronological list of lines `alpha_beta_search` prints on a run. -/
def printedLog (t : Node) (d : Int) (a b : XInt) (p pr : Bool) : List String :=
  ((ab t d a b p pr).1).map Tr.render

mutual
/-- Whether the depth-limited traversal of `alpha_beta_search` meets no
nonzero integer leaf with remaining depth, i.e. whether the unpruned run
completes without a `TypeError`.  Mirrors the branch structure of `ab`. -/
def errFree : Node → Int → Bool
  | .leaf v, d => d == 0 || v == 0
  | .node cs, d =>
    if d == 0 || Node.falsy (.node cs) then true else errFreeKids cs (d - 1)

/-- Conjunction of `errFree` over every child of a children list. -/
def errFreeKids : Children → Int → Bool
  | .nil, _ => true
  | .cons _ c rest, d => errFree c d && errFreeKids rest d
end

mutual
/-- The number of children the depth-limited traversal expands in total:
one per child of every internal node reached with remaining depth.  This is
the number of `Node:` records an error-free unpruned run prints. -/
def visits : Node → Int → Nat
  | .leaf _, _ => 0
  | .node cs, d =>
    if d == 0 || Node.falsy (.node cs) then 0 else kidVisits cs (d - 1)

/-- Sum of `visits` over a children list, plus one record per child. -/
def kidVisits : Children → Int → Nat
  | .nil, _ => 0
  | .cons _ c rest, d => visits c d + 1 + kidVisits rest d
end

/-- Whether a trace record is a per-child `Node:` record. -/
def isVisit : Tr → Bool
  | .visit _ _ _ => true
  | .pruned _ => false

/-- Number of per-child `Node:` records in a trace. -/
def visitCount (l : List Tr) : Nat := l.countP (fun e => isVisit e)

/-- Number of `Pruned at node` records in a trace. -/
def prunedCount (l : List Tr) : Nat := l.countP (fun e => !isVisit e)

/-- A trace does not start with a `Pruned at node` record. -/
def headOk : List Tr → Bool
  | .pruned _ :: _ => false
  | _ => true

/-- Every `Pruned at node` record in the trace immediately follows the
`Node:` record of the same child label, and that record's printed window is
closed (`beta <= alpha`), i.e. the cutoff condition held when it fired. -/
def traceWF : List Tr → Bool
  | [] => true
  | .pruned _ :: _ => false
  | .visit _ _ _ :: [] => true
  | .visit l al be :: .pruned l2 :: rest => l == l2 && XInt.le be al && traceWF rest
  | .visit _ _ _ :: rest => traceWF rest

mutual
/-- Modelled from the spec: the full-tree minimax value of the stored leaf
utilities (a leaf evaluates to its stored value; an internal node to the
max, resp. min, of its children's values). -/
def specMinimax : Node → Bool → XInt
  | .leaf v, _ => .fin v
  | .node cs, true => smmFoldMax cs
  | .node cs, false => smmFoldMin cs

/-- Fold of `specMinimax` over children with `max`. -/
def smmFoldMax : Children → XInt
  | .nil => .negInf
  | .cons _ c rest => XInt.max (specMinimax c false) (smmFoldMax rest)

/-- Fold of `specMinimax` over children with `min`. -/
def smmFoldMin : Children → XInt
  | .nil => .posInf
  | .cons _ c rest => XInt.min (specMinimax c true) (smmFoldMin rest)
end

mutual
/-- Height of a tree: leaves have height `0`, an internal node is one more
than the tallest child.  `depth >= height` makes the depth cutoff
irrelevant: every leaf is reached. -/
def height : Node → Nat
  | .leaf _ => 0
  | .node cs => kidHeight cs

/-- Height folded over a children list. -/
def kidHeight : Children → Nat
  | .nil => 0
  | .cons _ c rest => Nat.max (height c + 1) (kidHeight rest)
end

/-- The concrete tree of the spec's scenario:
`{A: {B: {D: 0, E: 1}, C: {F: 5, G: 2}}}` (`alpha_beta.py` line 64). -/
def tree4 : Node :=
  .node (.cons "A"
    (.node (.cons "B" (.node (.cons "D" (.leaf 0) (.cons "E" (.leaf 1) .nil)))
           (.cons "C" (.node (.cons "F" (.leaf 5) (.cons "G" (.leaf 2) .nil))) .nil)))
    .nil)

/-- The tree `{B: {x: 0}, C: {y: 0, z: 1}}`: pruning skips the child `z` whose
subtree makes the unpruned run raise. -/
def tree2 : Node :=
  .node (.cons "B" (.node (.cons "x" (.leaf 0) .nil))
        (.cons "C" (.node (.cons "y" (.leaf 0) (.cons "z" (.leaf 1) .nil))) .nil))

/-- The tree `{B: {b: 0}, C: {c1: 0}}`: the cutoff fires at the last child of `C`,
so the `Pruned at node` record is pure extra output. -/
def tree7 : Node :=
  .node (.cons "B" (.node (.cons "b" (.leaf 0) .nil))
        (.cons "C" (.node (.cons "c1" (.leaf 0) .nil)) .nil))

/-- The tree `{a: 1, b: 0}`: at depth 2 the first child raises, so `b` is never
visited even though pruning is disabled. -/
def tree9 : Node := .node (.cons "a" (.leaf 1) (.cons "b" (.leaf 0) .nil))

/-- The tree `{A: 1}`: height 1, one nonzero leaf. -/
def tree5 : Node := .node (.cons "A" (.leaf 1) .nil)

/-- The tree `{A: 2}`: height 1, one nonzero leaf. -/
def tree6 : Node := .node (.cons "A" (.leaf 2) .nil)

/-- The tree `{A: 0}`: height 1, a single zero leaf. -/
def tree10 : Node := .node (.cons "A" (.leaf 0) .nil)

/-- The tree `{x: 0}`: a minimal error-free tree with one child. -/
def tree0 : Node := .node (.cons "x" (.leaf 0) .nil)

/-- Mutual induction over `Node` and `Children`. -/
theorem nodeChildrenInd {P : Node → Prop} {Q : Children → Prop}
    (hleaf : ∀ v, P (.leaf v))
    (hnode : ∀ cs, Q cs → P (.node cs))
    (hnil : Q .nil)
    (hcons : ∀ l c rest, P c → Q rest → Q (.cons l c rest)) :
    (∀ n, P n) ∧ (∀ cs, Q cs) :=
  ⟨fun n => Node.rec hleaf hnode hnil hcons n,
   fun cs => Children.rec hleaf hnode hnil hcons cs⟩


/-- C1: the code does not pass a leaf's stored value through.  At the leaf
`1` with depth budget `0` it returns `0` (the `return 0` branch), and with
depth budget `1` it raises a `TypeError` (modelled `none`): the claimed
terminal passthrough value `1` is never returned. -/
theorem c1_leaf_value_dropped :
    (ab (.leaf 1) 0 .negInf .posInf true false).2 = some (XInt.fin 0) ∧
    (ab (.leaf 1) 1 .negInf .posInf true false).2 = none ∧
    (ab (.leaf 1) 0 .negInf .posInf true false).2 ≠ some (XInt.fin 1) ∧
    (ab (.leaf 1) 1 .negInf .posInf true false).2 ≠ some (XInt.fin 1) := by
  exact ⟨by decide, by decide, by decide, by decide⟩

/-- C2 counterexample: on `{B: {x: 0}, C: {y: 0, z: 1}}` with depth 3 and
the full window, the pruned run returns `0` but the unpruned run raises
(it recurses into the nonzero leaf `z` with remaining depth), so the two
runs do not return the same value. -/
theorem c2_pruning_changes_outcome :
    (ab tree2 3 .negInf .posInf true true).2 = some (XInt.fin 0) ∧
    (ab tree2 3 .negInf .posInf true false).2 = none ∧
    (ab tree2 3 .negInf .posInf true true).2 ≠ (ab tree2 3 .negInf .posInf true false).2 := by
  exact ⟨by decide, by decide, by decide⟩

/-- C4: the minimax value of the scenario tree with a maximizing root is
indeed `1` (root maximizes over the single child `A`, which minimizes over
`max(0,1) = 1` and `max(5,2) = 5`), but the code returns `0` with either
pruning flag: its base case discards the stored leaf utilities and returns
the literal `0`, so every fold yields `0`. -/
theorem c4_scenario_value_bug :
    specMinimax tree4 true = XInt.fin 1 ∧
    (ab tree4 3 .negInf .posInf true false).2 = some (XInt.fin 0) ∧
    (ab tree4 3 .negInf .posInf true true).2 = some (XInt.fin 0) ∧
    (ab tree4 3 .negInf .posInf true false).2 ≠ some (XInt.fin 1) := by
  exact ⟨by decide, by decide, by decide, by decide⟩

/-- C5: depth saturation fails.  `{A: 1}` has height 1 and full-tree
minimax value `1`, but at depth budget 1 the code returns `0`, and raising
the budget to 2 changes the outcome to a `TypeError` (`none`). -/
theorem c5_saturation_fails :
    height tree5 = 1 ∧ specMinimax tree5 true = XInt.fin 1 ∧
    (ab tree5 1 .negInf .posInf true false).2 = some (XInt.fin 0) ∧
    (ab tree5 2 .negInf .posInf true false).2 = none := by
  exact ⟨by decide, by decide, by decide, by decide⟩

/-- C6 counterexample: inside the claim's guard (depth 3 >= 0 and window
`alpha = -inf <= beta = +inf`), the run on `{A: 2}` reaches the nonzero
leaf `2` with remaining depth and fails, with either pruning flag: the
function is not total on these inputs. -/
theorem c6_failure_within_guard :
    XInt.le XInt.negInf XInt.posInf = true ∧
    (ab tree6 3 .negInf .posInf true false).2 = none ∧
    (ab tree6 3 .negInf .posInf true true).2 = none := by
  exact ⟨by decide, by decide, by decide⟩

/-- C7 counterexample: on `{B: {b: 0}, C: {c1: 0}}` with depth 3 the
pruned run prints 5 records but the unpruned run prints only 4: the cutoff
fires at the last child of `C`, so its `Pruned at node` record is an extra
record with no visit saved, and enabling pruning increases the trace. -/
theorem c7_pruned_trace_longer :
    (ab tree7 3 .negInf .posInf true true).1.length = 5 ∧
    (ab tree7 3 .negInf .posInf true false).1.length = 4 ∧
    ¬((ab tree7 3 .negInf .posInf true true).1.length ≤
      (ab tree7 3 .negInf .posInf true false).1.length) := by
  exact ⟨by decide, by decide, by decide⟩

/-- C9 counterexample: on `{a: 1, b: 0}` with depth 2 and pruning
disabled, the first child's subtree raises before any record is printed,
so the run aborts with an empty trace and the child `b` of the expanded
root is never visited (a full traversal would print one record per child,
i.e. 2). -/
theorem c9_error_skips_children :
    (ab tree9 2 .negInf .posInf true false).1 = [] ∧
    (ab tree9 2 .negInf .posInf true false).2 = none ∧
    visits tree9 2 = 2 := by
  exact ⟨by decide, by decide, by decide⟩

/-- C10 counterexample: a negative depth budget is not an immediate
terminal case.  On `{A: 0}` with depth `-1` the code recurses into the
child and prints a record (the trace is nonempty), and on `{A: 1}` with
depth `-1` it raises instead of returning `0`. -/
theorem c10_negative_depth_recurses :
    (ab tree10 (-1) .negInf .posInf true false).1 =
      [Tr.visit "A" (XInt.fin 0) XInt.posInf] ∧
    (ab tree10 (-1) .negInf .posInf true false).1 ≠ [] ∧
    (ab tree5 (-1) .negInf .posInf true false).2 = none := by
  exact ⟨by decide, by decide, by decide⟩

/-- Helper: a normal return of `alpha_beta_search` is always the literal
`0`, for any window, player and pruning flag; the loop invariant carries
the running `value` through the folds. -/
theorem ab_some_zero_aux :
    (∀ t : Node, ∀ d a b p pr r, (ab t d a b p pr).2 = some r → r = XInt.fin 0) ∧
    (∀ cs : Children, ∀ d a b pr v r,
      ((v = XInt.negInf ∨ v = XInt.fin 0) → (loopMax cs d a b pr v).2 = some r →
        r = XInt.fin 0 ∨ (cs = Children.nil ∧ r = v)) ∧
      ((v = XInt.posInf ∨ v = XInt.fin 0) → (loopMin cs d a b pr v).2 = some r →
        r = XInt.fin 0 ∨ (cs = Children.nil ∧ r = v))) := by
  apply nodeChildrenInd
  · intro v d a b p pr r h
    simp only [ab] at h
    split at h
    · exact (Option.some.inj h).symm
    · simp at h
  · intro cs ih d a b p pr r h
    simp only [ab] at h
    split at h
    · exact (Option.some.inj h).symm
    · rename_i hc
      cases cs with
      | nil => simp [Node.falsy] at hc
      | cons l c rest =>
        cases p with
        | true =>
          rw [if_pos rfl] at h
          rcases (ih (d - 1) a b pr XInt.negInf r).1 (Or.inl rfl) h with h0 | ⟨hnil, _⟩
          · exact h0
          · exact absurd hnil (by simp)
        | false =>
          rw [if_neg Bool.false_ne_true] at h
          rcases (ih (d - 1) a b pr XInt.posInf r).2 (Or.inl rfl) h with h0 | ⟨hnil, _⟩
          · exact h0
          · exact absurd hnil (by simp)
  · intro d a b pr v r
    constructor
    · intro _ h
      simp only [loopMax] at h
      exact Or.inr ⟨rfl, (Option.some.inj h).symm⟩
    · intro _ h
      simp only [loopMin] at h
      exact Or.inr ⟨rfl, (Option.some.inj h).symm⟩
  · intro l c rest ihc ihrest d a b pr v r
    constructor
    · intro hv h
      simp only [loopMax] at h
      rcases hab : ab c d a b false pr with ⟨tr, ocv⟩
      rw [hab] at h
      cases ocv with
      | none => simp at h
      | some cv =>
        have hcv : cv = XInt.fin 0 := ihc d a b false pr cv (by rw [hab])
        subst hcv
        have hv2 : XInt.max v (XInt.fin 0) = XInt.fin 0 := by
          rcases hv with h1 | h1 <;> subst h1 <;> decide
        simp only [hv2] at h
        split at h
        · exact Or.inl (Option.some.inj h).symm
        · rcases (ihrest d (XInt.max a (XInt.fin 0)) b pr (XInt.fin 0) r).1
            (Or.inr rfl) h with h0 | ⟨_, hv3⟩
          · exact Or.inl h0
          · exact Or.inl hv3
    · intro hv h
      simp only [loopMin] at h
      rcases hab : ab c d a b true pr with ⟨tr, ocv⟩
      rw [hab] at h
      cases ocv with
      | none => simp at h
      | some cv =>
        have hcv : cv = XInt.fin 0 := ihc d a b true pr cv (by rw [hab])
        subst hcv
        have hv2 : XInt.min v (XInt.fin 0) = XInt.fin 0 := by
          rcases hv with h1 | h1 <;> subst h1 <;> decide
        simp only [hv2] at h
        split at h
        · exact Or.inl (Option.some.inj h).symm
        · rcases (ihrest d a (XInt.min b (XInt.fin 0)) pr (XInt.fin 0) r).2
            (Or.inr rfl) h with h0 | ⟨_, hv3⟩
          · exact Or.inl h0
          · exact Or.inl hv3

/-- Helper: with pruning disabled the run returns a value exactly when the
depth-limited traversal meets no nonzero leaf with remaining depth; the
window does not influence success. -/
theorem ab_unpruned_isSome_aux :
    (∀ t : Node, ∀ d a b p, (ab t d a b p false).2.isSome = errFree t d) ∧
    (∀ cs : Children, ∀ d a b v,
      ((loopMax cs d a b false v).2.isSome = errFreeKids cs d) ∧
      ((loopMin cs d a b false v).2.isSome = errFreeKids cs d)) := by
  apply nodeChildrenInd
  · intro v d a b p
    simp only [ab, errFree, Node.falsy]
    split <;> simp_all
  · intro cs ih d a b p
    simp only [ab, errFree]
    split
    · simp
    · cases p with
      | true => rw [if_pos rfl]; exact (ih (d - 1) a b XInt.negInf).1
      | false => rw [if_neg Bool.false_ne_true]; exact (ih (d - 1) a b XInt.posInf).2
  · intro d a b v
    constructor <;> simp [loopMax, loopMin, errFreeKids]
  · intro l c rest ihc ihrest d a b v
    constructor
    · simp only [loopMax, errFreeKids]
      rcases hab : ab c d a b false false with ⟨tr, ocv⟩
      have hc := ihc d a b false
      rw [hab] at hc
      cases ocv with
      | none =>
        simp only [Option.isSome_none] at hc
        simp [← hc]
      | some cv =>
        simp only [Option.isSome_some] at hc
        simp [Bool.and_false, ← hc,
          (ihrest d (XInt.max a (XInt.max v cv)) b (XInt.max v cv)).1]
    · simp only [loopMin, errFreeKids]
      rcases hab : ab c d a b true false with ⟨tr, ocv⟩
      have hc := ihc d a b true
      rw [hab] at hc
      cases ocv with
      | none =>
        simp only [Option.isSome_none] at hc
        simp [← hc]
      | some cv =>
        simp only [Option.isSome_some] at hc
        simp [Bool.and_false, ← hc,
          (ihrest d a (XInt.min b (XInt.min v cv)) (XInt.min v cv)).2]

/-- Helper: on a traversal with no reachable failing leaf, the pruned run
also returns a value (pruning only skips work). -/
theorem ab_pruned_isSome_aux :
    (∀ t : Node, ∀ d, errFree t d = true → ∀ a b p, (ab t d a b p true).2.isSome = true) ∧
    (∀ cs : Children, ∀ d, errFreeKids cs d = true → ∀ a b v,
      ((loopMax cs d a b true v).2.isSome = true) ∧
      ((loopMin cs d a b true v).2.isSome = true)) := by
  apply nodeChildrenInd
  · intro v d he a b p
    simp only [errFree] at he
    simp only [ab]
    rw [if_pos (by simpa [Node.falsy] using he)]
    simp
  · intro cs ih d he a b p
    simp only [ab]
    split
    · simp
    · rename_i hc
      simp only [errFree] at he
      rw [if_neg hc] at he
      cases p with
      | true => rw [if_pos rfl]; exact (ih (d - 1) he a b XInt.negInf).1
      | false => rw [if_neg Bool.false_ne_true]; exact (ih (d - 1) he a b XInt.posInf).2
  · intro d _ a b v
    constructor <;> simp [loopMax, loopMin]
  · intro l c rest ihc ihrest d he a b v
    simp only [errFreeKids, Bool.and_eq_true] at he
    constructor
    · simp only [loopMax]
      rcases hab : ab c d a b false true with ⟨tr, ocv⟩
      have hc := ihc d he.1 a b false
      rw [hab] at hc
      cases ocv with
      | none => simp at hc
      | some cv =>
        dsimp only
        split
        · simp
        · simpa using (ihrest d he.2 (XInt.max a (XInt.max v cv)) b (XInt.max v cv)).1
    · simp only [loopMin]
      rcases hab : ab c d a b true true with ⟨tr, ocv⟩
      have hc := ihc d he.1 a b true
      rw [hab] at hc
      cases ocv with
      | none => simp at hc
      | some cv =>
        dsimp only
        split
        · simp
        · simpa using (ihrest d he.2 a (XInt.min b (XInt.min v cv)) (XInt.min v cv)).2

/-- Counting rewrite: `visitCount` distributes over append. -/
theorem visitCount_append (xs ys : List Tr) :
    visitCount (xs ++ ys) = visitCount xs + visitCount ys := by
  simp [visitCount, List.countP_append]

/-- Counting rewrite: a `Node:` record adds one to `visitCount`. -/
theorem visitCount_cons_visit (l : String) (al be : XInt) (t : List Tr) :
    visitCount (.visit l al be :: t) = visitCount t + 1 := by
  simp [visitCount, List.countP_cons, isVisit]

/-- Counting rewrite: a `Pruned` record does not change `visitCount`. -/
theorem visitCount_cons_pruned (l : String) (t : List Tr) :
    visitCount (.pruned l :: t) = visitCount t := by
  simp [visitCount, List.countP_cons, isVisit]

/-- Counting rewrite: the empty trace has no `Node:` records. -/
theorem visitCount_nil : visitCount [] = 0 := by
  simp [visitCount]

/-- Counting rewrite: `prunedCount` distributes over append. -/
theorem prunedCount_append (xs ys : List Tr) :
    prunedCount (xs ++ ys) = prunedCount xs + prunedCount ys := by
  simp [prunedCount, List.countP_append]

/-- Counting rewrite: a `Node:` record does not change `prunedCount`. -/
theorem prunedCount_cons_visit (l : String) (al be : XInt) (t : List Tr) :
    prunedCount (.visit l al be :: t) = prunedCount t := by
  simp [prunedCount, List.countP_cons, isVisit]

/-- Counting rewrite: a `Pruned` record adds one to `prunedCount`. -/
theorem prunedCount_cons_pruned (l : String) (t : List Tr) :
    prunedCount (.pruned l :: t) = prunedCount t + 1 := by
  simp [prunedCount, List.countP_cons, isVisit]

/-- Counting rewrite: the empty trace has no `Pruned` records. -/
theorem prunedCount_nil : prunedCount [] = 0 := by
  simp [prunedCount]

/-- A trace's length is its `Node:` records plus its `Pruned` records. -/
theorem length_eq_visit_add_pruned (l : List Tr) :
    l.length = visitCount l + prunedCount l := by
  induction l with
  | nil => simp [visitCount_nil, prunedCount_nil]
  | cons x t ih =>
    cases x with
    | visit l al be => simp [visitCount_cons_visit, prunedCount_cons_visit, ih]; omega
    | pruned l => simp [visitCount_cons_pruned, prunedCount_cons_pruned, ih]; omega

/-- Helper: any run (pruned or not, any window) prints at most one
`Node:` record per child of the depth-limited expansion. -/
theorem ab_visitCount_le_aux :
    (∀ t : Node, ∀ d a b p pr, visitCount (ab t d a b p pr).1 ≤ visits t d) ∧
    (∀ cs : Children, ∀ d a b pr v,
      (visitCount (loopMax cs d a b pr v).1 ≤ kidVisits cs d) ∧
      (visitCount (loopMin cs d a b pr v).1 ≤ kidVisits cs d)) := by
  apply nodeChildrenInd
  · intro v d a b p pr
    simp only [ab, visits]
    split <;> simp [visitCount_nil]
  · intro cs ih d a b p pr
    simp only [ab, visits]
    split
    · simp [visitCount_nil]
    · cases p with
      | true => rw [if_pos rfl]; exact (ih (d - 1) a b pr XInt.negInf).1
      | false => rw [if_neg Bool.false_ne_true]; exact (ih (d - 1) a b pr XInt.posInf).2
  · intro d a b pr v
    constructor <;> simp [loopMax, loopMin, kidVisits, visitCount_nil]
  · intro l c rest ihc ihrest d a b pr v
    constructor
    · simp only [loopMax, kidVisits]
      rcases hab : ab c d a b false pr with ⟨tr, ocv⟩
      have hc := ihc d a b false pr
      rw [hab] at hc
      dsimp only at hc
      cases ocv with
      | none =>
        dsimp only
        omega
      | some cv =>
        dsimp only
        split
        · rw [visitCount_append, visitCount_cons_visit, visitCount_cons_pruned,
            visitCount_nil]
          omega
        · have hr := (ihrest d (XInt.max a (XInt.max v cv)) b pr (XInt.max v cv)).1
          rw [visitCount_append, visitCount_cons_visit]
          omega
    · simp only [loopMin, kidVisits]
      rcases hab : ab c d a b true pr with ⟨tr, ocv⟩
      have hc := ihc d a b true pr
      rw [hab] at hc
      dsimp only at hc
      cases ocv with
      | none =>
        dsimp only
        omega
      | some cv =>
        dsimp only
        split
        · rw [visitCount_append, visitCount_cons_visit, visitCount_cons_pruned,
            visitCount_nil]
          omega
        · have hr := (ihrest d a (XInt.min b (XInt.min v cv)) pr (XInt.min v cv)).2
          rw [visitCount_append, visitCount_cons_visit]
          omega

/-- Helper: when the traversal is error-free, the unpruned run prints
exactly one `Node:` record per child of the depth-limited expansion. -/
theorem ab_unpruned_visitCount_aux :
    (∀ t : Node, ∀ d, errFree t d = true → ∀ a b p,
      visitCount (ab t d a b p false).1 = visits t d) ∧
    (∀ cs : Children, ∀ d, errFreeKids cs d = true → ∀ a b v,
      (visitCount (loopMax cs d a b false v).1 = kidVisits cs d) ∧
      (visitCount (loopMin cs d a b false v).1 = kidVisits cs d)) := by
  apply nodeChildrenInd
  · intro v d he a b p
    simp only [errFree] at he
    simp only [ab, visits]
    rw [if_pos (by simpa [Node.falsy] using he)]
    simp [visitCount_nil]
  · intro cs ih d he a b p
    simp only [ab, visits]
    by_cases hc : (d == 0 || Node.falsy (Node.node cs)) = true
    · rw [if_pos hc, if_pos hc]; simp [visitCount_nil]
    · rw [if_neg hc, if_neg hc]
      simp only [errFree] at he
      rw [if_neg hc] at he
      cases p with
      | true => rw [if_pos rfl]; exact (ih (d - 1) he a b XInt.negInf).1
      | false => rw [if_neg Bool.false_ne_true]; exact (ih (d - 1) he a b XInt.posInf).2
  · intro d _ a b v
    constructor <;> simp [loopMax, loopMin, kidVisits, visitCount_nil]
  · intro l c rest ihc ihrest d he a b v
    simp only [errFreeKids, Bool.and_eq_true] at he
    constructor
    · simp only [loopMax, kidVisits]
      rcases hab : ab c d a b false false with ⟨tr, ocv⟩
      have hsome := ab_unpruned_isSome_aux.1 c d a b false
      rw [hab, he.1] at hsome
      cases ocv with
      | none => simp at hsome
      | some cv =>
        dsimp only
        rw [Bool.and_false, if_neg Bool.false_ne_true]
        have hc := ihc d he.1 a b false
        rw [hab] at hc
        dsimp only at hc
        have hr := (ihrest d he.2 (XInt.max a (XInt.max v cv)) b (XInt.max v cv)).1
        rw [visitCount_append, visitCount_cons_visit]
        omega
    · simp only [loopMin, kidVisits]
      rcases hab : ab c d a b true false with ⟨tr, ocv⟩
      have hsome := ab_unpruned_isSome_aux.1 c d a b true
      rw [hab, he.1] at hsome
      cases ocv with
      | none => simp at hsome
      | some cv =>
        dsimp only
        rw [Bool.and_false, if_neg Bool.false_ne_true]
        have hc := ihc d he.1 a b true
        rw [hab] at hc
        dsimp only at hc
        have hr := (ihrest d he.2 a (XInt.min b (XInt.min v cv)) (XInt.min v cv)).2
        rw [visitCount_append, visitCount_cons_visit]
        omega

/-- Helper: with pruning disabled no `Pruned at node` record is ever
printed (the cutoff branch is guarded by the pruning flag). -/
theorem ab_unpruned_noPruned_aux :
    (∀ t : Node, ∀ d a b p, prunedCount (ab t d a b p false).1 = 0) ∧
    (∀ cs : Children, ∀ d a b v,
      (prunedCount (loopMax cs d a b false v).1 = 0) ∧
      (prunedCount (loopMin cs d a b false v).1 = 0)) := by
  apply nodeChildrenInd
  · intro v d a b p
    simp only [ab]
    split <;> simp [prunedCount_nil]
  · intro cs ih d a b p
    simp only [ab]
    split
    · simp [prunedCount_nil]
    · cases p with
      | true => rw [if_pos rfl]; exact (ih (d - 1) a b XInt.negInf).1
      | false => rw [if_neg Bool.false_ne_true]; exact (ih (d - 1) a b XInt.posInf).2
  · intro d a b v
    constructor <;> simp [loopMax, loopMin, prunedCount_nil]
  · intro l c rest ihc ihrest d a b v
    constructor
    · simp only [loopMax]
      rcases hab : ab c d a b false false with ⟨tr, ocv⟩
      have hc := ihc d a b false
      rw [hab] at hc
      dsimp only at hc
      cases ocv with
      | none =>
        dsimp only
        omega
      | some cv =>
        dsimp only
        rw [Bool.and_false, if_neg Bool.false_ne_true]
        have hr := (ihrest d (XInt.max a (XInt.max v cv)) b (XInt.max v cv)).1
        rw [prunedCount_append, prunedCount_cons_visit]
        omega
    · simp only [loopMin]
      rcases hab : ab c d a b true false with ⟨tr, ocv⟩
      have hc := ihc d a b true
      rw [hab] at hc
      dsimp only at hc
      cases ocv with
      | none =>
        dsimp only
        omega
      | some cv =>
        dsimp only
        rw [Bool.and_false, if_neg Bool.false_ne_true]
        have hr := (ihrest d a (XInt.min b (XInt.min v cv)) (XInt.min v cv)).2
        rw [prunedCount_append, prunedCount_cons_visit]
        omega

/-- Appending two traces that satisfy `headOk` keeps `headOk`. -/
theorem headOk_append (xs ys : List Tr) (hx : headOk xs = true)
    (hy : headOk ys = true) : headOk (xs ++ ys) = true := by
  cases xs with
  | nil => simpa using hy
  | cons x t =>
    cases x with
    | visit l al be => simp [headOk]
    | pruned l => simp [headOk] at hx

/-- A `Node:` record may be prepended to any well-formed trace that does
not start with a `Pruned` record. -/
theorem traceWF_cons_visit (l : String) (al be : XInt) (t : List Tr)
    (ht : traceWF t = true) (hh : headOk t = true) :
    traceWF (.visit l al be :: t) = true := by
  cases t with
  | nil => simp [traceWF]
  | cons y t2 =>
    cases y with
    | visit l2 a2 b2 => simpa [traceWF] using ht
    | pruned l2 => simp [headOk] at hh

/-- Well-formedness of traces is preserved by appending, provided the
appended trace does not start with a `Pruned` record. -/
theorem traceWF_append (xs ys : List Tr) (hx : traceWF xs = true)
    (hy : traceWF ys = true) (hh : headOk ys = true) :
    traceWF (xs ++ ys) = true := by
  suffices h : ∀ n (zs : List Tr), zs.length ≤ n → traceWF zs = true →
      traceWF (zs ++ ys) = true from h xs.length xs le_rfl hx
  intro n
  induction n with
  | zero =>
    intro zs hlen hz
    have hz0 : zs = [] := List.eq_nil_of_length_eq_zero (Nat.le_zero.mp hlen)
    subst hz0
    simpa using hy
  | succ n ih =>
    intro zs hlen hz
    rcases zs with _ | ⟨x, t⟩
    · simpa using hy
    · cases x with
      | pruned l => simp [traceWF] at hz
      | visit l al be =>
        rcases t with _ | ⟨y, t2⟩
        · simpa using traceWF_cons_visit l al be ys hy hh
        · cases y with
          | pruned l2 =>
            simp only [List.cons_append, traceWF, Bool.and_eq_true] at hz ⊢
            obtain ⟨⟨h1, h2⟩, h3⟩ := hz
            exact ⟨⟨h1, h2⟩, ih t2 (by simp at hlen; omega) h3⟩
          | visit l2 a2 b2 =>
            have hz3 : traceWF (Tr.visit l2 a2 b2 :: t2) = true := by
              simpa [traceWF] using hz
            have h4 := ih (Tr.visit l2 a2 b2 :: t2) (by simp at hlen ⊢; omega) hz3
            simpa [traceWF, List.cons_append] using h4

/-- Helper: every trace `alpha_beta_search` prints is well-formed: it never
starts with a `Pruned` record, and every `Pruned` record immediately
follows the `Node:` record of the same child with a closed printed window. -/
theorem ab_traceWF_aux :
    (∀ t : Node, ∀ d a b p pr,
      traceWF (ab t d a b p pr).1 = true ∧ headOk (ab t d a b p pr).1 = true) ∧
    (∀ cs : Children, ∀ d a b pr v,
      (traceWF (loopMax cs d a b pr v).1 = true ∧
        headOk (loopMax cs d a b pr v).1 = true) ∧
      (traceWF (loopMin cs d a b pr v).1 = true ∧
        headOk (loopMin cs d a b pr v).1 = true)) := by
  apply nodeChildrenInd
  · intro v d a b p pr
    simp only [ab]
    split <;> simp [traceWF, headOk]
  · intro cs ih d a b p pr
    simp only [ab]
    split
    · simp [traceWF, headOk]
    · cases p with
      | true => rw [if_pos rfl]; exact (ih (d - 1) a b pr XInt.negInf).1
      | false => rw [if_neg Bool.false_ne_true]; exact (ih (d - 1) a b pr XInt.posInf).2
  · intro d a b pr v
    refine ⟨⟨?_, ?_⟩, ⟨?_, ?_⟩⟩ <;> simp [loopMax, loopMin, traceWF, headOk]
  · intro l c rest ihc ihrest d a b pr v
    constructor
    · simp only [loopMax]
      rcases hab : ab c d a b false pr with ⟨tr, ocv⟩
      have hc := ihc d a b false pr
      rw [hab] at hc
      dsimp only at hc
      cases ocv with
      | none => exact hc
      | some cv =>
        dsimp only
        split
        · rename_i hcond
          have hle : XInt.le b (XInt.max a (XInt.max v cv)) = true := by
            rw [Bool.and_eq_true] at hcond
            exact hcond.1
          constructor
          · exact traceWF_append _ _ hc.1 (by simp [traceWF, hle]) (by simp [headOk])
          · exact headOk_append _ _ hc.2 (by simp [headOk])
        · have hr := (ihrest d (XInt.max a (XInt.max v cv)) b pr (XInt.max v cv)).1
          constructor
          · exact traceWF_append _ _ hc.1
              (traceWF_cons_visit _ _ _ _ hr.1 hr.2) (by simp [headOk])
          · exact headOk_append _ _ hc.2 (by simp [headOk])
    · simp only [loopMin]
      rcases hab : ab c d a b true pr with ⟨tr, ocv⟩
      have hc := ihc d a b true pr
      rw [hab] at hc
      dsimp only at hc
      cases ocv with
      | none => exact hc
      | some cv =>
        dsimp only
        split
        · rename_i hcond
          have hle : XInt.le (XInt.min b (XInt.min v cv)) a = true := by
            rw [Bool.and_eq_true] at hcond
            exact hcond.1
          constructor
          · exact traceWF_append _ _ hc.1 (by simp [traceWF, hle]) (by simp [headOk])
          · exact headOk_append _ _ hc.2 (by simp [headOk])
        · have hr := (ihrest d a (XInt.min b (XInt.min v cv)) pr (XInt.min v cv)).2
          constructor
          · exact traceWF_append _ _ hc.1
              (traceWF_cons_visit _ _ _ _ hr.1 hr.2) (by simp [headOk])
          · exact headOk_append _ _ hc.2 (by simp [headOk])

/-- Helper: with a negative depth budget the `depth == 0` cutoff can never
fire (the budget only decreases), so the whole run — trace and result — is
the same for every negative budget. -/
theorem ab_negDepth_aux :
    (∀ t : Node, ∀ a b p pr, ∀ d d' : Int, d < 0 → d' < 0 →
      ab t d a b p pr = ab t d' a b p pr) ∧
    (∀ cs : Children, ∀ a b pr v, ∀ d d' : Int, d < 0 → d' < 0 →
      (loopMax cs d a b pr v = loopMax cs d' a b pr v) ∧
      (loopMin cs d a b pr v = loopMin cs d' a b pr v)) := by
  apply nodeChildrenInd
  · intro v a b p pr d d' hd hd'
    have h1 : (d == 0) = false := by simp only [beq_eq_false_iff_ne, ne_eq]; omega
    have h2 : (d' == 0) = false := by simp only [beq_eq_false_iff_ne, ne_eq]; omega
    simp only [ab, h1, h2]
  · intro cs ih a b p pr d d' hd hd'
    have h1 : (d == 0) = false := by simp only [beq_eq_false_iff_ne, ne_eq]; omega
    have h2 : (d' == 0) = false := by simp only [beq_eq_false_iff_ne, ne_eq]; omega
    simp only [ab, h1, h2, Bool.false_or]
    by_cases hf : Node.falsy (Node.node cs) = true
    · rw [if_pos hf, if_pos hf]
    · rw [if_neg hf, if_neg hf]
      cases p with
      | true =>
        rw [if_pos rfl, if_pos rfl]
        exact (ih a b pr XInt.negInf (d - 1) (d' - 1) (by omega) (by omega)).1
      | false =>
        rw [if_neg Bool.false_ne_true, if_neg Bool.false_ne_true]
        exact (ih a b pr XInt.posInf (d - 1) (d' - 1) (by omega) (by omega)).2
  · intro a b pr v d d' _ _
    exact ⟨rfl, rfl⟩
  · intro l c rest ihc ihrest a b pr v d d' hd hd'
    constructor
    · simp only [loopMax]
      rw [ihc a b false pr d d' hd hd']
      rcases hab : ab c d' a b false pr with ⟨tr, ocv⟩
      cases ocv with
      | none => rfl
      | some cv =>
        dsimp only
        rw [(ihrest (XInt.max a (XInt.max v cv)) b pr (XInt.max v cv) d d' hd hd').1]
    · simp only [loopMin]
      rw [ihc a b true pr d d' hd hd']
      rcases hab : ab c d' a b true pr with ⟨tr, ocv⟩
      cases ocv with
      | none => rfl
      | some cv =>
        dsimp only
        rw [(ihrest a (XInt.min b (XInt.min v cv)) pr (XInt.min v cv) d d' hd hd').2]

/-- C2 amended: whenever the unpruned run with the full initial window
returns a value, the pruned run returns the same value (both are `0`);
the two runs can only differ when the unpruned run raises on a subtree
that pruning skips. -/
theorem c2_pruned_agrees_when_unpruned_returns :
    ∀ (t : Node) (d : Int) (p : Bool) (v : XInt),
      (ab t d .negInf .posInf p false).2 = some v →
      (ab t d .negInf .posInf p true).2 = some v := by
  intro t d p v h
  have hv : v = XInt.fin 0 := ab_some_zero_aux.1 t d .negInf .posInf p false v h
  have he : errFree t d = true := by
    have h2 := ab_unpruned_isSome_aux.1 t d .negInf .posInf p
    rw [h] at h2
    simpa using h2.symm
  have h3 := ab_pruned_isSome_aux.1 t d he .negInf .posInf p
  rcases ho : (ab t d .negInf .posInf p true).2 with _ | w
  · rw [ho] at h3; simp at h3
  · have hw : w = XInt.fin 0 := ab_some_zero_aux.1 t d .negInf .posInf p true w ho
    rw [hw, hv]

/-- Witness for the amended C2 at a concrete input. -/
theorem c2_pruned_agrees_witness :
    (ab tree0 1 .negInf .posInf true true).2 = some (XInt.fin 0) :=
  c2_pruned_agrees_when_unpruned_returns tree0 1 true (XInt.fin 0) (by decide)

/-- C3: whenever `alpha_beta_search` returns normally, the returned value
is exactly `0`, for every tree, depth, window, player and pruning flag:
the only non-recursive return is the literal `0`, and the max/min folds
over children therefore also yield `0`, so stored leaf values never reach
the result. -/
theorem c3_normal_return_is_zero :
    ∀ (t : Node) (d : Int) (a b : XInt) (p pr : Bool) (r : XInt),
      (ab t d a b p pr).2 = some r → r = XInt.fin 0 :=
  fun t d a b p pr r h => ab_some_zero_aux.1 t d a b p pr r h

/-- Witness for C3 at a concrete input. -/
theorem c3_normal_return_witness : XInt.fin 0 = XInt.fin 0 :=
  c3_normal_return_is_zero tree4 3 .negInf .posInf true false (XInt.fin 0) (by decide)

/-- C6 amended: `alpha_beta_search` is a function of its inputs but not
total: for any window and player, the unpruned run returns a value exactly
when the depth-limited traversal meets no nonzero leaf with remaining
depth (`errFree`), and on such error-free inputs the pruned run returns a
value as well. -/
theorem c6_success_characterisation :
    ∀ (t : Node) (d : Int) (a b : XInt) (p : Bool),
      ((ab t d a b p false).2.isSome = true ↔ errFree t d = true) ∧
      (errFree t d = true → (ab t d a b p true).2.isSome = true) := by
  intro t d a b p
  constructor
  · rw [ab_unpruned_isSome_aux.1 t d a b p]
  · intro he
    exact ab_pruned_isSome_aux.1 t d he a b p

/-- Witness for the amended C6 at a concrete input. -/
theorem c6_success_witness : (ab tree7 3 .negInf .posInf true true).2.isSome = true :=
  (c6_success_characterisation tree7 3 .negInf .posInf true).2 (by decide)

/-- C7 amended: on runs whose unpruned traversal is error-free, enabling
pruning never increases the number of per-child `Node:` records; the
total record count can still grow because of the extra `Pruned at node`
markers. -/
theorem c7_visit_records_monotone :
    ∀ (t : Node) (d : Int) (a b : XInt) (p : Bool),
      errFree t d = true →
      visitCount (ab t d a b p true).1 ≤ visitCount (ab t d a b p false).1 := by
  intro t d a b p he
  have h1 := ab_visitCount_le_aux.1 t d a b p true
  have h2 := ab_unpruned_visitCount_aux.1 t d he a b p
  omega

/-- Witness for the amended C7 at a concrete input. -/
theorem c7_visit_records_witness :
    visitCount (ab tree7 3 .negInf .posInf true true).1 ≤
      visitCount (ab tree7 3 .negInf .posInf true false).1 :=
  c7_visit_records_monotone tree7 3 .negInf .posInf true (by decide)

/-- C8: every printed line has one of the two literal forms
`Node: {label}, Alpha: {alpha}, Beta: {beta}` or `Pruned at node {label}`;
every `Pruned` line immediately follows the `Node:` line of the same child
with its printed window closed (the cutoff condition); and on the spec's
scenario tree the whole log, in chronological order, is the explicit list
below (each record showing the window after the child's value was folded
in). -/
theorem c8_trace_wire_contract :
    (∀ (t : Node) (d : Int) (a b : XInt) (p pr : Bool) (s : String),
      s ∈ printedLog t d a b p pr →
      (∃ l al be, s = "Node: " ++ l ++ ", Alpha: " ++ XInt.str al ++
        ", Beta: " ++ XInt.str be) ∨
      (∃ l, s = "Pruned at node " ++ l)) ∧
    (∀ (t : Node) (d : Int) (a b : XInt) (p pr : Bool),
      traceWF (ab t d a b p pr).1 = true) ∧
    printedLog tree4 3 .negInf .posInf true true =
      ["Node: D, Alpha: 0, Beta: inf", "Node: E, Alpha: 0, Beta: inf",
       "Node: B, Alpha: -inf, Beta: 0", "Node: F, Alpha: 0, Beta: 0",
       "Pruned at node F", "Node: C, Alpha: -inf, Beta: 0",
       "Node: A, Alpha: 0, Beta: inf"] := by
  refine ⟨?_, ?_, by decide⟩
  · intro t d a b p pr s hs
    simp only [printedLog, List.mem_map] at hs
    obtain ⟨e, _, he⟩ := hs
    cases e with
    | visit l al be => exact Or.inl ⟨l, al, be, he.symm⟩
    | pruned l => exact Or.inr ⟨l, he.symm⟩
  · intro t d a b p pr
    exact (ab_traceWF_aux.1 t d a b p pr).1

/-- Witness for C8 at a concrete input and line. -/
theorem c8_trace_wire_witness :
    (∃ l al be, "Node: A, Alpha: 0, Beta: inf" = "Node: " ++ l ++ ", Alpha: " ++
      XInt.str al ++ ", Beta: " ++ XInt.str be) ∨
    (∃ l, "Node: A, Alpha: 0, Beta: inf" = "Pruned at node " ++ l) :=
  c8_trace_wire_contract.1 tree4 3 .negInf .posInf true true
    "Node: A, Alpha: 0, Beta: inf" (by decide)

/-- C9 amended: with pruning disabled the trace never contains a
`Pruned at node` record, and whenever the run completes without error it
prints exactly one `Node:` record per child of every node it expands; an
error aborts the remaining siblings, so the full-visit guarantee needs
the run to return. -/
theorem c9_no_pruned_and_full_visits :
    ∀ (t : Node) (d : Int) (a b : XInt) (p : Bool),
      prunedCount (ab t d a b p false).1 = 0 ∧
      ((ab t d a b p false).2.isSome = true →
        (ab t d a b p false).1.length = visits t d) := by
  intro t d a b p
  refine ⟨ab_unpruned_noPruned_aux.1 t d a b p, ?_⟩
  intro hs
  have he : errFree t d = true := by
    rw [← ab_unpruned_isSome_aux.1 t d a b p]
    exact hs
  have h1 := ab_unpruned_visitCount_aux.1 t d he a b p
  have h2 := ab_unpruned_noPruned_aux.1 t d a b p
  have h3 := length_eq_visit_add_pruned (ab t d a b p false).1
  omega

/-- Witness for the amended C9 at a concrete input. -/
theorem c9_no_pruned_witness :
    (ab tree7 3 .negInf .posInf true false).1.length = visits tree7 3 :=
  (c9_no_pruned_and_full_visits tree7 3 .negInf .posInf true).2 (by decide)

/-- C10 amended: a negative depth budget is not an immediate terminal
case; instead the cutoff never fires, and the run — trace and result — is
identical for every negative budget (an unbounded-depth traversal of the
finite tree). -/
theorem c10_negative_depth_unbounded :
    ∀ (t : Node) (a b : XInt) (p pr : Bool) (d d' : Int), d < 0 → d' < 0 →
      ab t d a b p pr = ab t d' a b p pr :=
  fun t a b p pr d d' hd hd' => ab_negDepth_aux.1 t a b p pr d d' hd hd'

/-- Witness for the amended C10 at a concrete input. -/
theorem c10_negative_depth_witness :
    ab tree10 (-1) .negInf .posInf true false = ab tree10 (-7) .negInf .posInf true false :=
  c10_negative_depth_unbounded tree10 .negInf .posInf true false (-1) (-7)
    (by decide) (by decide)
